import Mathlib

/-!
# fl_limit: per-token fixed-window request limiter in front of a reverse proxy

A shallow embedding of `src/main.go`.

Modelling conventions.

* A Go `string` is a Lean `String`. Every string operation the program uses
  (`strings.HasPrefix`, `strings.TrimPrefix`, `strings.Trim` with the cutset `"/"`,
  `strings.IndexRune` with the rune `'/'`, slicing at the index found) only compares
  whole code units and looks for the ASCII character `'/'`, so on well-formed text
  the byte-wise Go operation and the character-wise one below agree.
* A `time.Time` is an `Int` (an instant on the monotonic clock, counted in one fixed unit)
  and a `time.Duration` is an `Int` in the same unit. `time.Now()` is an explicit argument
  `now` of `Allow`; `now.After(r)` is `now > r` and `now.Add(d)` is `now + d`.
* Go `int` values (`Count`, `max`) are `Int`. The only arithmetic on them is `e.Count++`,
  executed only when `e.Count < l.max`, so the increment never leaves the range of `int`.
* `map[string]*tokenEntry` is a function `String → Option tokenEntry`; the assignment
  `l.data[token] = e` and the in-place `e.Count++` through the pointer are both
  `Function.update` at `token`.
* The mutex makes every `Allow` call atomic, so a run of the program is a sequence of
  calls, each one a pure step on the limiter state.
-/

namespace FlLimit

/-! ## Configuration -/

/-- The `Config` struct of `main.go`, with the nested YAML sections flattened. -/
structure Config where
  Listen : String
  URL : String
  ShortPrefix : String
  Max : Int
  Window : String

/-! ## The limiter -/

/-- The `tokenEntry` struct: the counter of one token and the end of its window. -/
structure tokenEntry where
  Count : Int
  ResetAt : Int
  deriving DecidableEq, Repr

/-- The `TokenLimiter` struct (without the mutex). -/
structure TokenLimiter where
  data : String → Option tokenEntry
  max : Int
  window : Int

/-- `NewTokenLimiter(max, window)`: an empty map. -/
def NewTokenLimiter (max window : Int) : TokenLimiter :=
  { data := fun _ => none, max := max, window := window }

/-- The entry `Allow` works on after its first `if`, and the map after that `if`:
`e, ok := l.data[token]; if !ok || now.After(e.ResetAt) { e = &tokenEntry{0, now.Add(l.window)};
l.data[token] = e }`. -/
def lookupOrReset (l : TokenLimiter) (now : Int) (token : String) :
    tokenEntry × (String → Option tokenEntry) :=
  let fresh : tokenEntry := { Count := 0, ResetAt := now + l.window }
  match l.data token with
  | none => (fresh, Function.update l.data token (some fresh))
  | some e =>
    if now > e.ResetAt then (fresh, Function.update l.data token (some fresh))
    else (e, l.data)

/-- `(l *TokenLimiter) Allow(token)` called when the clock reads `now`:
the pair `(allowed, current)` and the limiter after the call. -/
def Allow (l : TokenLimiter) (now : Int) (token : String) : (Bool × Int) × TokenLimiter :=
  let p := lookupOrReset l now token
  let e := p.1
  if e.Count ≥ l.max then
    ((false, e.Count), { l with data := p.2 })
  else
    ((true, e.Count + 1),
      { l with data := Function.update p.2 token (some { e with Count := e.Count + 1 }) })

/-- A run of `Allow` calls, each given as `(time of the call, token)`: the limiter
after the last call. -/
def runCalls (l : TokenLimiter) : List (Int × String) → TokenLimiter
  | [] => l
  | c :: cs => runCalls (Allow l c.1 c.2).2 cs

/-- The results `(allowed, current)` of a run of `Allow` calls, in order. -/
def results (l : TokenLimiter) : List (Int × String) → List (Bool × Int)
  | [] => []
  | c :: cs => (Allow l c.1 c.2).1 :: results (Allow l c.1 c.2).2 cs

/-- The calls of a run that were admitted, in order. -/
def admitted (l : TokenLimiter) : List (Int × String) → List (Int × String)
  | [] => []
  | c :: cs =>
    if (Allow l c.1 c.2).1.1 then c :: admitted (Allow l c.1 c.2).2 cs
    else admitted (Allow l c.1 c.2).2 cs

/-- The number of admitted calls of a run that were made with the token `t` at a time
in the closed interval `[a, b]`. -/
def admitsIn (l : TokenLimiter) (cs : List (Int × String)) (t : String) (a b : Int) : Nat :=
  (admitted l cs).countP (fun c => decide (c.2 = t ∧ a ≤ c.1 ∧ c.1 ≤ b))

/-- Every stored count lies between `0` and `max`. -/
def CountsBounded (l : TokenLimiter) : Prop :=
  ∀ (k : String) (e : tokenEntry), l.data k = some e → 0 ≤ e.Count ∧ e.Count ≤ l.max

/-! ## Go string functions used by the extractor -/

/-- `strings.HasPrefix(s, p)`. -/
def HasPrefix (s p : String) : Bool := p.data.isPrefixOf s.data

/-- `strings.HasSuffix(s, suffix)`. -/
def HasSuffix (s suffix : String) : Bool := suffix.data.isSuffixOf s.data

/-- `strings.TrimPrefix(s, p)`: `s` without the leading `p`, or `s` itself. -/
def TrimPrefix (s p : String) : String :=
  if HasPrefix s p then ⟨s.data.drop p.data.length⟩ else s

/-- `strings.TrimRight(s, cutset)`. -/
def TrimRight (s cutset : String) : String :=
  ⟨(s.data.reverse.dropWhile (fun c => cutset.data.contains c)).reverse⟩

/-- `strings.TrimLeft(s, cutset)`. -/
def TrimLeft (s cutset : String) : String :=
  ⟨s.data.dropWhile (fun c => cutset.data.contains c)⟩

/-- `strings.Trim(s, cutset)`: leading and trailing characters of `cutset` removed. -/
def Trim (s cutset : String) : String := TrimLeft (TrimRight s cutset) cutset

/-- `strings.IndexRune(s, r)`: the index of the first `r` in `s`, or `-1`. -/
def IndexRune (s : String) (r : Char) : Int :=
  if s.data.indexOf r < s.data.length then (s.data.indexOf r : Int) else -1

/-- The slice expression `s[:idx]` for `0 ≤ idx ≤ len(s)`. -/
def sliceTo (s : String) (idx : Int) : String := ⟨s.data.take idx.toNat⟩

/-! ## Token extraction -/

/-- `extractTokenFromRequest(r, cfg)`, as a function of `r.URL.Path` and `cfg`. -/
def extractTokenFromRequest (path : String) (cfg : Config) : String :=
  let prefix0 := cfg.ShortPrefix
  let pfx := if prefix0 = "" then "/s/" else prefix0
  if !HasPrefix path pfx then ""
  else
    let tokenPart := TrimPrefix path pfx
    let tokenPart := Trim tokenPart "/"
    if tokenPart = "" then ""
    else
      let idx := IndexRune tokenPart '/'
      if idx ≥ 0 then sliceTo tokenPart idx else tokenPart

/-- The extractor as the specification words it: empty when the path does not start
with the prefix; otherwise strip the prefix, remove every leading and trailing `'/'`,
and keep what stands before the first `'/'` that is left (everything, when none is). -/
def extractSpec (path pfx : String) : String :=
  if pfx.data <+: path.data then
    let r := ((path.data.drop pfx.data.length).dropWhile (· = '/')).rdropWhile (· = '/')
    if r = [] then "" else ⟨r.takeWhile (· ≠ '/')⟩
  else ""

/-! ## The gate -/

/-- The three responses of the handler `limitAndProxy`. -/
inductive Outcome where
  | badRequest
  | tooManyRequests
  | forwarded
  deriving DecidableEq, Repr

/-- The HTTP status the handler itself writes; a forwarded request relays the upstream's. -/
def Outcome.status : Outcome → Option Nat
  | .badRequest => some 400
  | .tooManyRequests => some 429
  | .forwarded => none

/-- What one request does: the response, the limiter afterwards, and the tokens with
which `limiter.Allow` was called while handling it (a ghost trace of the calls). -/
structure GateResult where
  outcome : Outcome
  limiter : TokenLimiter
  allowCalls : List String

/-- The handler returned by `limitAndProxy(cfg, limiter, proxy)`, run on a request with
path `path` when the clock reads `now`. -/
def limitAndProxy (cfg : Config) (limiter : TokenLimiter) (now : Int) (path : String) :
    GateResult :=
  let token := extractTokenFromRequest path cfg
  if token = "" then
    { outcome := .badRequest, limiter := limiter, allowCalls := [] }
  else
    let r := Allow limiter now token
    if !r.1.1 then
      { outcome := .tooManyRequests, limiter := r.2, allowCalls := [token] }
    else
      { outcome := .forwarded, limiter := r.2, allowCalls := [token] }

/-- A run of requests through the handler, each given as `(time of the request, path)`:
the limiter after the last one. -/
def runGate (cfg : Config) (l : TokenLimiter) : List (Int × String) → TokenLimiter
  | [] => l
  | r :: rs => runGate cfg (limitAndProxy cfg l r.1 r.2).limiter rs

/-! ## Configuration defaults -/

/-- The defaulting step of `loadConfig`, on the configuration `yaml.Unmarshal` decoded
(reading and decoding the file are outside the model): the five `if` statements of the
source, in their order. -/
def loadConfig (decoded : Config) : Config :=
  let cfg := decoded
  let cfg := if cfg.Listen = "" then { cfg with Listen := ":8080" } else cfg
  let cfg := if cfg.ShortPrefix = "" then { cfg with ShortPrefix := "/s/" } else cfg
  let cfg := if !HasSuffix cfg.ShortPrefix "/" then
    { cfg with ShortPrefix := cfg.ShortPrefix ++ "/" } else cfg
  let cfg := if cfg.Max ≤ 0 then { cfg with Max := 10 } else cfg
  let cfg := if cfg.Window = "" then { cfg with Window := "24h" } else cfg
  cfg

/-! ## Basic facts about `Allow` -/

theorem Allow_max (l : TokenLimiter) (now : Int) (token : String) :
    (Allow l now token).2.max = l.max := by
  unfold Allow; dsimp only; split <;> rfl

theorem Allow_window (l : TokenLimiter) (now : Int) (token : String) :
    (Allow l now token).2.window = l.window := by
  unfold Allow; dsimp only; split <;> rfl

/-- A call with one token leaves the entry of every other token alone. -/
theorem Allow_data_ne (l : TokenLimiter) (now : Int) (token b : String) (h : b ≠ token) :
    (Allow l now token).2.data b = l.data b := by
  unfold Allow lookupOrReset
  cases hd : l.data token with
  | none => simp only []; split <;> simp [Function.update_noteq h]
  | some e =>
    simp only []
    by_cases hr : now > e.ResetAt
    · simp only [hr, if_true]; split <;> simp [Function.update_noteq h]
    · simp only [hr, if_false]; split <;> simp [Function.update_noteq h]

/-- The reset branch on a token without an entry. -/
theorem Allow_absent (l : TokenLimiter) (now : Int) (token : String) (hmax : 1 ≤ l.max)
    (hd : l.data token = none) :
    Allow l now token = ((true, 1), 
      ⟨Function.update l.data token (some { Count := 1, ResetAt := now + l.window }), l.max, l.window⟩) := by
  have h0 : ¬ (0 : Int) ≥ l.max := by omega
  simp [Allow, lookupOrReset, hd, h0]

/-- The reset branch on a token whose window has lapsed. -/
theorem Allow_lapsed (l : TokenLimiter) (now : Int) (token : String) (e : tokenEntry)
    (hmax : 1 ≤ l.max) (hd : l.data token = some e) (hr : now > e.ResetAt) :
    Allow l now token = ((true, 1), 
      ⟨Function.update l.data token (some { Count := 1, ResetAt := now + l.window }), l.max, l.window⟩) := by
  have h0 : ¬ (0 : Int) ≥ l.max := by omega
  simp [Allow, lookupOrReset, hd, hr, h0]

/-- Inside the window, below the maximum: the call is admitted and counted. -/
theorem Allow_active_below (l : TokenLimiter) (now : Int) (token : String) (e : tokenEntry)
    (hd : l.data token = some e) (hr : now ≤ e.ResetAt) (hc : e.Count < l.max) :
    Allow l now token = ((true, e.Count + 1), 
      ⟨Function.update l.data token (some { Count := e.Count + 1, ResetAt := e.ResetAt }), l.max, l.window⟩) := by
  have h1 : ¬ now > e.ResetAt := by omega
  have h2 : ¬ e.Count ≥ l.max := by omega
  simp [Allow, lookupOrReset, hd, h1, h2]

/-- Inside the window, at the maximum: the call is denied and nothing changes. -/
theorem Allow_active_full (l : TokenLimiter) (now : Int) (token : String) (e : tokenEntry)
    (hd : l.data token = some e) (hr : now ≤ e.ResetAt) (hc : l.max ≤ e.Count) :
    Allow l now token = ((false, e.Count), l) := by
  have h1 : ¬ now > e.ResetAt := by omega
  have h2 : e.Count ≥ l.max := by omega
  simp [Allow, lookupOrReset, hd, h1, h2]

/-! ## Runs of calls with one token inside one window -/

/-- The calls `Allow(t)` made at the times `ts`. -/
theorem results_active (t : String) (ts : List Int) :
    ∀ (l : TokenLimiter) (e : tokenEntry), l.data t = some e → e.Count ≤ l.max →
      (∀ x ∈ ts, x ≤ e.ResetAt) →
      results l (ts.map (fun x => (x, t))) =
        (List.range ts.length).map (fun i : Nat =>
          if e.Count + (i : Int) + 1 ≤ l.max then (true, e.Count + (i : Int) + 1)
          else (false, l.max)) := by
  induction ts with
  | nil => intro l e _ _ _; rfl
  | cons x ts ih =>
    intro l e hd hc hin
    have hx : x ≤ e.ResetAt := hin x (List.mem_cons_self _ _)
    have hrest : ∀ y ∈ ts, y ≤ e.ResetAt := fun y hy => hin y (List.mem_cons_of_mem _ hy)
    simp only [List.map_cons, results, List.length_cons, List.range_succ_eq_map, List.map_map]
    rcases lt_or_eq_of_le hc with hlt | heq
    · rw [Allow_active_below l x t e hd hx hlt]
      have hd2 : (⟨Function.update l.data t (some ⟨e.Count + 1, e.ResetAt⟩), l.max, l.window⟩ :
          TokenLimiter).data t = some ⟨e.Count + 1, e.ResetAt⟩ := by simp
      rw [ih _ ⟨e.Count + 1, e.ResetAt⟩ hd2 (by simpa using hlt) hrest]
      have h0 : e.Count + 1 ≤ l.max := by omega
      simp only [Nat.cast_zero, add_zero, List.cons.injEq]
      refine ⟨by simp [h0], List.map_congr_left ?_⟩
      intro i _
      simp only [Function.comp, Nat.cast_succ]
      have : e.Count + 1 + (i : Int) + 1 = e.Count + ((i : Int) + 1) + 1 := by ring
      rw [this]
    · rw [Allow_active_full l x t e hd hx (le_of_eq heq.symm)]
      rw [ih l e hd hc hrest]
      have h0 : ¬ l.max + 1 ≤ l.max := by omega
      simp only [heq, Nat.cast_zero, add_zero, List.cons.injEq]
      refine ⟨by simp, List.map_congr_left ?_⟩
      intro i _
      have h1 : ¬ l.max + (i : Int) + 1 ≤ l.max := by omega
      have h2 : ¬ l.max + ((i + 1 : Nat) : Int) + 1 ≤ l.max := by push_cast; omega
      simp only [Function.comp, h1, h2, if_false, Nat.succ_eq_add_one]

/-- The number of calls admitted in a run of `Allow(t)` calls inside one window. -/
theorem admitted_active_length (t : String) (ts : List Int) :
    ∀ (l : TokenLimiter) (e : tokenEntry), l.data t = some e → e.Count ≤ l.max →
      (∀ x ∈ ts, x ≤ e.ResetAt) →
      (admitted l (ts.map (fun x => (x, t)))).length = min ts.length (l.max - e.Count).toNat := by
  induction ts with
  | nil => intro l e _ _ _; simp [admitted]
  | cons x ts ih =>
    intro l e hd hc hin
    have hx : x ≤ e.ResetAt := hin x (List.mem_cons_self _ _)
    have hrest : ∀ y ∈ ts, y ≤ e.ResetAt := fun y hy => hin y (List.mem_cons_of_mem _ hy)
    simp only [List.map_cons, admitted, List.length_cons]
    rcases lt_or_eq_of_le hc with hlt | heq
    · rw [Allow_active_below l x t e hd hx hlt]
      have hd2 : (⟨Function.update l.data t (some ⟨e.Count + 1, e.ResetAt⟩), l.max, l.window⟩ :
          TokenLimiter).data t = some ⟨e.Count + 1, e.ResetAt⟩ := by simp
      simp only [if_true, List.length_cons]
      rw [ih _ ⟨e.Count + 1, e.ResetAt⟩ hd2 (by simpa using hlt) hrest]
      simp only
      omega
    · rw [Allow_active_full l x t e hd hx (le_of_eq heq.symm)]
      simp only [Bool.false_eq_true, if_false]
      rw [ih l e hd hc hrest]
      omega

/-! ## Runs of calls: what they keep -/

theorem runCalls_max (cs : List (Int × String)) :
    ∀ l : TokenLimiter, (runCalls l cs).max = l.max := by
  induction cs with
  | nil => intro l; rfl
  | cons c cs ih => intro l; simp only [runCalls]; rw [ih, Allow_max]

theorem runCalls_window (cs : List (Int × String)) :
    ∀ l : TokenLimiter, (runCalls l cs).window = l.window := by
  induction cs with
  | nil => intro l; rfl
  | cons c cs ih => intro l; simp only [runCalls]; rw [ih, Allow_window]

/-- A run that never names `b` leaves the entry of `b` alone. -/
theorem runCalls_data_ne (b : String) (cs : List (Int × String)) :
    ∀ l : TokenLimiter, (∀ c ∈ cs, c.2 ≠ b) → (runCalls l cs).data b = l.data b := by
  induction cs with
  | nil => intro l _; rfl
  | cons c cs ih =>
    intro l h
    simp only [runCalls]
    rw [ih _ (fun d hd => h d (List.mem_cons_of_mem _ hd))]
    exact Allow_data_ne l c.1 c.2 b (fun hb => h c (List.mem_cons_self _ _) hb.symm)

/-- The result of `Allow(b)`, and the entry of `b` afterwards, depend only on the
entry of `b` and on the limiter's parameters. -/
theorem Allow_congr (l1 l2 : TokenLimiter) (now : Int) (b : String)
    (hd : l1.data b = l2.data b) (hm : l1.max = l2.max) (hw : l1.window = l2.window) :
    (Allow l1 now b).1 = (Allow l2 now b).1 ∧
      (Allow l1 now b).2.data b = (Allow l2 now b).2.data b := by
  unfold Allow lookupOrReset
  rw [hd, hm, hw]
  cases l2.data b with
  | none => simp only []; split <;> simp
  | some e =>
    simp only []
    by_cases hr : now > e.ResetAt
    · simp only [hr, if_true]; split <;> simp
    · simp only [hr, if_false]; split <;> simp [hd]

/-! ## Claims about `Allow` -/

/-- C1. Admit/deny boundary within one window: for a limiter with `max ≥ 1` and a token
`t` without an entry, a run of `Allow(t)` calls whose first call is made at `t1` and whose
later calls are all made no later than the end `t1 + window` of the window the first
call opens (in particular: at non-decreasing times inside that window, for `window > 0`)
answers its `i`-th call (counting from `i = 1`) with `(true, i)` while `i ≤ max` and with
`(false, max)` afterwards; the number of admitted calls is `max`, or the number of
calls when there are fewer. -/
theorem allow_admit_deny_boundary (l : TokenLimiter) (t : String) (t1 : Int) (ts : List Int)
    (hmax : 1 ≤ l.max) (hnone : l.data t = none)
    (hin : ∀ x ∈ ts, x ≤ t1 + l.window) :
    results l ((t1 :: ts).map (fun x => (x, t))) =
        (List.range (ts.length + 1)).map (fun i : Nat =>
          if (i : Int) + 1 ≤ l.max then (true, (i : Int) + 1) else (false, l.max)) ∧
      (admitted l ((t1 :: ts).map (fun x => (x, t)))).length
        = min (ts.length + 1) l.max.toNat := by
  have hd2 : (⟨Function.update l.data t (some ⟨1, t1 + l.window⟩), l.max, l.window⟩ :
      TokenLimiter).data t = some ⟨1, t1 + l.window⟩ := by simp
  constructor
  · simp only [List.map_cons, results, List.range_succ_eq_map, List.map_map]
    rw [Allow_absent l t1 t hmax hnone]
    rw [results_active t ts _ ⟨1, t1 + l.window⟩ hd2 hmax hin]
    simp only [Nat.cast_zero, zero_add, List.cons.injEq]
    refine ⟨by simp [hmax], List.map_congr_left ?_⟩
    intro i _
    simp only [Function.comp, Nat.cast_succ]
    have : (1 : Int) + (i : Int) + 1 = (i : Int) + 1 + 1 := by ring
    rw [this]
  · simp only [List.map_cons, admitted]
    rw [Allow_absent l t1 t hmax hnone]
    simp only [if_true, List.length_cons]
    rw [admitted_active_length t ts _ ⟨1, t1 + l.window⟩ hd2 hmax hin]
    simp only
    omega

/-- C1, at `max = 3`, `window = 10`: calls at the times 0, 1, 2, 3. -/
theorem allow_admit_deny_boundary_witness :
    results (NewTokenLimiter 3 10) [(0, "t"), (1, "t"), (2, "t"), (3, "t")]
        = [(true, 1), (true, 2), (true, 3), (false, 3)] ∧
      (admitted (NewTokenLimiter 3 10) [(0, "t"), (1, "t"), (2, "t"), (3, "t")]).length = 3 := by
  have h := allow_admit_deny_boundary (NewTokenLimiter 3 10) "t" 0 [1, 2, 3]
    (by decide) rfl (by decide)
  exact ⟨h.1.trans (by decide), h.2.trans (by decide)⟩

/-- C2, as stated, fails. With `max = 1` and `window = 10` a first call at time 0
leaves the entry `count = 1, resetAt = 10`; a call made at `now = 10` exactly is denied
with `(false, 1)` and the entry is not replaced. With `max = 3` the call at `now = 10`
is counted in the old window and returns `(true, 2)`. -/
theorem allow_at_resetAt_not_reset :
    ((Allow (NewTokenLimiter 1 10) 0 "t").2.data "t" = some ⟨1, 10⟩ ∧
      (Allow (Allow (NewTokenLimiter 1 10) 0 "t").2 10 "t").1 = (false, 1) ∧
      (Allow (Allow (NewTokenLimiter 1 10) 0 "t").2 10 "t").2.data "t" = some ⟨1, 10⟩) ∧
    ((Allow (NewTokenLimiter 3 10) 0 "t").2.data "t" = some ⟨1, 10⟩ ∧
      (Allow (Allow (NewTokenLimiter 3 10) 0 "t").2 10 "t").1 = (true, 2) ∧
      (Allow (Allow (NewTokenLimiter 3 10) 0 "t").2 10 "t").2.data "t" = some ⟨2, 10⟩) := by
  decide

/-- C2, amended. The reset boundary is exclusive: for a limiter with `max ≥ 1` and a
token whose stored entry is `e`, the entry is replaced by `count = 0,
resetAt = now + window` before counting exactly when `now > e.ResetAt`, and the call then
returns `(true, 1)`. A call made at `now = e.ResetAt` exactly (and any call with
`now ≤ e.ResetAt`) is counted in the stored window: the entry keeps its `resetAt`, and the
call returns `(false, count)` when `count ≥ max` and `(true, count + 1)` otherwise. -/
theorem allow_reset_boundary_exclusive (l : TokenLimiter) (t : String) (e : tokenEntry)
    (now : Int) (hmax : 1 ≤ l.max) (hd : l.data t = some e) :
    (now > e.ResetAt →
      lookupOrReset l now t
          = (⟨0, now + l.window⟩, Function.update l.data t (some ⟨0, now + l.window⟩)) ∧
        (Allow l now t).1 = (true, 1)) ∧
    (now ≤ e.ResetAt →
      lookupOrReset l now t = (e, l.data) ∧
        (Allow l now t).1
          = (if e.Count ≥ l.max then (false, e.Count) else (true, e.Count + 1)) ∧
        ∃ e2, (Allow l now t).2.data t = some e2 ∧ e2.ResetAt = e.ResetAt) := by
  constructor
  · intro hr
    refine ⟨by simp [lookupOrReset, hd, hr], ?_⟩
    rw [Allow_lapsed l now t e hmax hd hr]
  · intro hr
    have h1 : ¬ now > e.ResetAt := by omega
    refine ⟨by simp [lookupOrReset, hd, h1], ?_⟩
    by_cases hc : e.Count < l.max
    · rw [Allow_active_below l now t e hd hr hc]
      have h2 : ¬ e.Count ≥ l.max := by omega
      exact ⟨by simp [h2], ⟨e.Count + 1, e.ResetAt⟩, by simp, rfl⟩
    · have h2 : e.Count ≥ l.max := by omega
      rw [Allow_active_full l now t e hd hr h2]
      exact ⟨by simp [h2], e, hd, rfl⟩

/-- C2 amended, at the boundary itself: entry `count = 1, resetAt = 10`, `max = 1`,
`now = 10`. -/
theorem allow_reset_boundary_exclusive_witness :
    (Allow (Allow (NewTokenLimiter 1 10) 0 "t").2 10 "t").1 = (false, 1) ∧
      (Allow (Allow (NewTokenLimiter 1 10) 0 "t").2 11 "t").1 = (true, 1) := by
  have h := allow_reset_boundary_exclusive (Allow (NewTokenLimiter 1 10) 0 "t").2 "t" ⟨1, 10⟩
  exact ⟨((h 10 (by decide) (by decide)).2 (by decide)).2.1.trans (by decide),
    ((h 11 (by decide) (by decide)).1 (by decide)).2⟩

/-- C3. Window reset: for a limiter with `max ≥ 1` and a token with any stored entry
(any count), a call made strictly after the entry's `resetAt` returns `(true, 1)` and
leaves the entry `count = 1, resetAt = now + window`. -/
theorem allow_window_reset (l : TokenLimiter) (t : String) (e : tokenEntry) (now : Int)
    (hmax : 1 ≤ l.max) (hd : l.data t = some e) (hr : e.ResetAt < now) :
    (Allow l now t).1 = (true, 1) ∧
      (Allow l now t).2.data t = some ⟨1, now + l.window⟩ := by
  rw [Allow_lapsed l now t e hmax hd hr]
  simp

/-- C3, after a denial: `max = 1`, `window = 10`, calls at 0 (admitted), 5 (denied), 11. -/
theorem allow_window_reset_witness :
    (Allow (runCalls (NewTokenLimiter 1 10) [(0, "t"), (5, "t")]) 11 "t").1 = (true, 1) ∧
      (Allow (runCalls (NewTokenLimiter 1 10) [(0, "t"), (5, "t")]) 11 "t").2.data "t"
        = some ⟨1, 21⟩ :=
  allow_window_reset (runCalls (NewTokenLimiter 1 10) [(0, "t"), (5, "t")]) "t" ⟨1, 10⟩ 11
    (by decide) (by decide) (by decide)

/-- C4. A denied call does not mutate: for a limiter with `max ≥ 1`, any state, token
and time, when `Allow` returns `allowed = false` the limiter after the call is the limiter
before it, the token has a stored entry, and the returned count is that entry's count. -/
theorem allow_denied_no_mutation (l : TokenLimiter) (now : Int) (t : String)
    (hmax : 1 ≤ l.max) (hden : (Allow l now t).1.1 = false) :
    (Allow l now t).2 = l ∧ ∃ e, l.data t = some e ∧ (Allow l now t).1.2 = e.Count := by
  cases hd : l.data t with
  | none => rw [Allow_absent l now t hmax hd] at hden; simp at hden
  | some e =>
    by_cases hr : now > e.ResetAt
    · rw [Allow_lapsed l now t e hmax hd hr] at hden; simp at hden
    · have hr2 : now ≤ e.ResetAt := by omega
      by_cases hc : e.Count < l.max
      · rw [Allow_active_below l now t e hd hr2 hc] at hden; simp at hden
      · have hc2 : l.max ≤ e.Count := by omega
        rw [Allow_active_full l now t e hd hr2 hc2]
        exact ⟨rfl, e, rfl, rfl⟩

/-- C4, at `max = 1`: the second call in the window is denied. -/
theorem allow_denied_no_mutation_witness :
    (Allow (Allow (NewTokenLimiter 1 10) 0 "t").2 5 "t").2 = (Allow (NewTokenLimiter 1 10) 0 "t").2 ∧
      ∃ e, (Allow (NewTokenLimiter 1 10) 0 "t").2.data "t" = some e ∧
        (Allow (Allow (NewTokenLimiter 1 10) 0 "t").2 5 "t").1.2 = e.Count :=
  allow_denied_no_mutation (Allow (NewTokenLimiter 1 10) 0 "t").2 5 "t" (by decide) (by decide)

/-- C5. Per-token independence: for two distinct tokens `a` and `b`, `Allow(a)` at any
time leaves the entry of `b` as it was; hence, after any number of `Allow(a)` calls at any
times, a call `Allow(b)` returns what it would have returned without them and leaves the
same entry for `b`; in particular a call of `b` that would be admitted is still admitted
however often `a` was called. -/
theorem allow_tokens_independent (l : TokenLimiter) (a b : String) (hab : a ≠ b) :
    (∀ now : Int, (Allow l now a).2.data b = l.data b) ∧
    (∀ (times : List Int) (now : Int),
      (Allow (runCalls l (times.map (fun x => (x, a)))) now b).1 = (Allow l now b).1 ∧
      (Allow (runCalls l (times.map (fun x => (x, a)))) now b).2.data b
        = (Allow l now b).2.data b) ∧
    (∀ (times : List Int) (now : Int), (Allow l now b).1.1 = true →
      (Allow (runCalls l (times.map (fun x => (x, a)))) now b).1.1 = true) := by
  have key : ∀ (times : List Int) (now : Int),
      (Allow (runCalls l (times.map (fun x => (x, a)))) now b).1 = (Allow l now b).1 ∧
      (Allow (runCalls l (times.map (fun x => (x, a)))) now b).2.data b
        = (Allow l now b).2.data b := by
    intro times now
    apply Allow_congr
    · apply runCalls_data_ne
      intro c hc
      obtain ⟨x, _, rfl⟩ := List.mem_map.1 hc
      exact hab
    · exact runCalls_max _ _
    · exact runCalls_window _ _
  refine ⟨fun now => Allow_data_ne l now a b (Ne.symm hab), key, ?_⟩
  intro times now h
  rw [(key times now).1]
  exact h

/-- C5, at `max = 1`: `a` is exhausted (one admit, two denials), `b` is still admitted. -/
theorem allow_tokens_independent_witness :
    (Allow (runCalls (NewTokenLimiter 1 10) [(0, "a"), (1, "a"), (2, "a")]) 3 "b").1
      = (true, 1) := by
  have h := (allow_tokens_independent (NewTokenLimiter 1 10) "a" "b" (by decide)).2.1
    [0, 1, 2] 3
  exact h.1.trans (by decide)

/-! ## The count bound -/

/-- One call keeps every stored count between `0` and `max`. -/
theorem Allow_countsBounded (l : TokenLimiter) (now : Int) (t : String) (hmax : 1 ≤ l.max)
    (h : CountsBounded l) : CountsBounded (Allow l now t).2 := by
  intro k e hk
  rw [Allow_max]
  by_cases hkt : k = t
  · subst hkt
    have hfresh : ∀ l2 : TokenLimiter, l2 = ⟨Function.update l.data k
        (some ⟨1, now + l.window⟩), l.max, l.window⟩ → l2.data k = some e →
        0 ≤ e.Count ∧ e.Count ≤ l.max := by
      intro l2 h2 h3
      subst h2
      simp only [Function.update_same, Option.some.injEq] at h3
      subst h3
      exact ⟨by simp, hmax⟩
    cases hd : l.data k with
    | none => exact hfresh _ (congrArg Prod.snd (Allow_absent l now k hmax hd)) hk
    | some e0 =>
      by_cases hr : now > e0.ResetAt
      · exact hfresh _ (congrArg Prod.snd (Allow_lapsed l now k e0 hmax hd hr)) hk
      · have hr2 : now ≤ e0.ResetAt := by omega
        have hb := h k e0 hd
        by_cases hc : e0.Count < l.max
        · rw [Allow_active_below l now k e0 hd hr2 hc] at hk
          simp only [Function.update_same, Option.some.injEq] at hk
          subst hk
          exact ⟨by simp only; omega, by simp only; omega⟩
        · rw [Allow_active_full l now k e0 hd hr2 (by omega)] at hk
          exact h k e hk
  · rw [Allow_data_ne l now t k hkt] at hk
    exact h k e hk

theorem runCalls_countsBounded (cs : List (Int × String)) :
    ∀ l : TokenLimiter, 1 ≤ l.max → CountsBounded l → CountsBounded (runCalls l cs) := by
  induction cs with
  | nil => intro l _ h; exact h
  | cons c cs ih =>
    intro l hmax h
    simp only [runCalls]
    exact ih _ (by rw [Allow_max]; exact hmax) (Allow_countsBounded l c.1 c.2 hmax h)

/-! ## Admitted calls in a time interval -/

theorem admitsIn_cons (l : TokenLimiter) (c : Int × String) (cs : List (Int × String))
    (t : String) (a b : Int) :
    admitsIn l (c :: cs) t a b =
      (if (Allow l c.1 c.2).1.1 = true ∧ c.2 = t ∧ a ≤ c.1 ∧ c.1 ≤ b then 1 else 0)
        + admitsIn (Allow l c.1 c.2).2 cs t a b := by
  unfold admitsIn
  simp only [admitted]
  by_cases h : (Allow l c.1 c.2).1.1 = true
  · simp only [h, if_true, List.countP_cons, true_and]
    rw [add_comm]
    congr 1
    by_cases h2 : c.2 = t ∧ a ≤ c.1 ∧ c.1 ≤ b <;> simp [h2]
  · simp [h]

theorem admitsIn_cons_le (l : TokenLimiter) (c : Int × String) (cs : List (Int × String))
    (t : String) (a b : Int) :
    admitsIn l (c :: cs) t a b ≤ 1 + admitsIn (Allow l c.1 c.2).2 cs t a b := by
  rw [admitsIn_cons]
  split <;> omega

/-- A call with another token, or outside the interval, or denied, is not counted. -/
theorem admitsIn_cons_skip (l : TokenLimiter) (c : Int × String) (cs : List (Int × String))
    (t : String) (a b : Int)
    (h : ¬ ((Allow l c.1 c.2).1.1 = true ∧ c.2 = t ∧ a ≤ c.1 ∧ c.1 ≤ b)) :
    admitsIn l (c :: cs) t a b = admitsIn (Allow l c.1 c.2).2 cs t a b := by
  rw [admitsIn_cons, if_neg h, zero_add]

/-- Calls made after `b` are not counted. -/
theorem admitsIn_after (t : String) (a b : Int) (cs : List (Int × String)) :
    ∀ l : TokenLimiter, (∀ c ∈ cs, b < c.1) → admitsIn l cs t a b = 0 := by
  induction cs with
  | nil => intro l _; rfl
  | cons c cs ih =>
    intro l h
    have hc : b < c.1 := h c (List.mem_cons_self _ _)
    rw [admitsIn_cons_skip l c cs t a b (by intro hh; omega)]
    exact ih _ (fun d hd => h d (List.mem_cons_of_mem _ hd))

/-- One window: while the interval ends no later than the stored window, the admitted
calls of the interval fit in what is left of the quota. -/
theorem admitsIn_one_window (t : String) (a b : Int) (cs : List (Int × String)) :
    ∀ (l : TokenLimiter) (e : tokenEntry), l.data t = some e → e.Count ≤ l.max →
      b ≤ e.ResetAt → cs.Pairwise (fun c d => c.1 ≤ d.1) →
      (admitsIn l cs t a b : Int) + e.Count ≤ l.max := by
  induction cs with
  | nil => intro l e _ hc _ _; simpa [admitsIn, admitted] using hc
  | cons c cs ih =>
    intro l e hd hc hb hs
    obtain ⟨hhead, hs2⟩ := List.pairwise_cons.1 hs
    obtain ⟨x, k⟩ := c
    by_cases hk : k = t
    · subst hk
      by_cases hx : x ≤ e.ResetAt
      · by_cases hlt : e.Count < l.max
        · have hle := admitsIn_cons_le l (x, k) cs k a b
          dsimp only at hle
          rw [Allow_active_below l x k e hd hx hlt] at hle
          dsimp only at hle
          have := ih ⟨Function.update l.data k (some ⟨e.Count + 1, e.ResetAt⟩), l.max, l.window⟩
            ⟨e.Count + 1, e.ResetAt⟩ (by simp) (by simpa using hlt) hb hs2
          simp only [] at this
          omega
        · have hfull : l.max ≤ e.Count := by omega
          rw [admitsIn_cons_skip l (x, k) cs k a b
            (by simp only []; rw [Allow_active_full l x k e hd hx hfull]; simp)]
          simp only []
          rw [Allow_active_full l x k e hd hx hfull]
          exact ih l e hd hc hb hs2
      · rw [admitsIn_cons_skip l (x, k) cs k a b (by simp only []; intro hh; omega)]
        rw [admitsIn_after k a b cs _ (fun d hdm => by have := hhead d hdm; simp only [] at this; omega)]
        simpa using hc
    · rw [admitsIn_cons_skip l (x, k) cs t a b (by simp only []; intro hh; exact hk hh.2.1)]
      have hd2 : (Allow l x k).2.data t = some e := by
        rw [Allow_data_ne l x k t (Ne.symm hk)]; exact hd
      have := ih (Allow l x k).2 e hd2 (by rw [Allow_max]; exact hc) hb hs2
      rw [Allow_max] at this
      exact this

/-- Two windows: while the interval ends no later than one window length after the
stored window, its admitted calls fit in what is left of the quota plus one more quota. -/
theorem admitsIn_two_windows (t : String) (a b : Int) (cs : List (Int × String)) :
    ∀ (l : TokenLimiter) (e : tokenEntry), 1 ≤ l.max → l.data t = some e →
      e.Count ≤ l.max → b ≤ e.ResetAt + l.window → cs.Pairwise (fun c d => c.1 ≤ d.1) →
      (admitsIn l cs t a b : Int) + e.Count ≤ 2 * l.max := by
  induction cs with
  | nil => intro l e _ _ hc _ _; simp [admitsIn, admitted]; omega
  | cons c cs ih =>
    intro l e hmax hd hc hb hs
    obtain ⟨_, hs2⟩ := List.pairwise_cons.1 hs
    obtain ⟨x, k⟩ := c
    by_cases hk : k = t
    · subst hk
      have hle := admitsIn_cons_le l (x, k) cs k a b
      dsimp only at hle
      by_cases hx : x ≤ e.ResetAt
      · by_cases hlt : e.Count < l.max
        · rw [Allow_active_below l x k e hd hx hlt] at hle
          dsimp only at hle
          have := ih ⟨Function.update l.data k (some ⟨e.Count + 1, e.ResetAt⟩), l.max, l.window⟩
            ⟨e.Count + 1, e.ResetAt⟩ hmax (by simp) (by simpa using hlt) hb hs2
          simp only [] at this
          omega
        · have hfull : l.max ≤ e.Count := by omega
          rw [admitsIn_cons_skip l (x, k) cs k a b
            (by simp only []; rw [Allow_active_full l x k e hd hx hfull]; simp)]
          simp only []
          rw [Allow_active_full l x k e hd hx hfull]
          exact ih l e hmax hd hc hb hs2
      · have hx2 : x > e.ResetAt := by omega
        rw [Allow_lapsed l x k e hmax hd hx2] at hle
        dsimp only at hle
        have := admitsIn_one_window k a b cs
          ⟨Function.update l.data k (some ⟨1, x + l.window⟩), l.max, l.window⟩
          ⟨1, x + l.window⟩ (by simp) hmax (by simp only; omega) hs2
        simp only [] at this
        omega
    · rw [admitsIn_cons_skip l (x, k) cs t a b (by simp only []; intro hh; exact hk hh.2.1)]
      have hd2 : (Allow l x k).2.data t = some e := by
        rw [Allow_data_ne l x k t (Ne.symm hk)]; exact hd
      have := ih (Allow l x k).2 e (by rw [Allow_max]; exact hmax) hd2
        (by rw [Allow_max]; exact hc) (by rw [Allow_window]; exact hb) hs2
      rw [Allow_max] at this
      exact this

/-- From any state with bounded counts: in an interval no longer than the window, at
most `2 * max` calls of one token are admitted. -/
theorem admitsIn_le_two_max (t : String) (a b : Int) (cs : List (Int × String)) :
    ∀ l : TokenLimiter, 1 ≤ l.max → b - a ≤ l.window →
      (∀ e, l.data t = some e → 0 ≤ e.Count ∧ e.Count ≤ l.max) →
      cs.Pairwise (fun c d => c.1 ≤ d.1) →
      (admitsIn l cs t a b : Int) ≤ 2 * l.max := by
  induction cs with
  | nil => intro l hmax _ _ _; simp [admitsIn, admitted]; omega
  | cons c cs ih =>
    intro l hmax hab hinv hs
    obtain ⟨_, hs2⟩ := List.pairwise_cons.1 hs
    obtain ⟨x, k⟩ := c
    have hnext : (admitsIn (Allow l x k).2 cs t a b : Int) ≤ 2 * l.max := by
      have hinv2 : ∀ e, (Allow l x k).2.data t = some e →
          0 ≤ e.Count ∧ e.Count ≤ (Allow l x k).2.max := by
        by_cases hk : k = t
        · subst hk
          cases hd : l.data k with
          | none => rw [Allow_absent l x k hmax hd]; intro e he; simp at he; subst he; simp; omega
          | some e0 =>
            have hb0 := hinv e0 hd
            by_cases hx : x > e0.ResetAt
            · rw [Allow_lapsed l x k e0 hmax hd hx]; intro e he; simp at he; subst he; simp; omega
            · by_cases hlt : e0.Count < l.max
              · rw [Allow_active_below l x k e0 hd (by omega) hlt]
                intro e he; simp at he; subst he; simp; omega
              · rw [Allow_active_full l x k e0 hd (by omega) (by omega)]
                intro e he; rw [hd] at he; simp at he; subst he; exact hb0
        · intro e he
          rw [Allow_data_ne l x k t (Ne.symm hk)] at he
          rw [Allow_max]
          exact hinv e he
      have := ih (Allow l x k).2 (by rw [Allow_max]; exact hmax)
        (by rw [Allow_window]; exact hab) hinv2 hs2
      rw [Allow_max] at this
      exact this
    by_cases hcount : (Allow l x k).1.1 = true ∧ k = t ∧ a ≤ x ∧ x ≤ b
    · obtain ⟨_, hk, hax, _⟩ := hcount
      subst hk
      have hle := admitsIn_cons_le l (x, k) cs k a b
      dsimp only at hle
      have hfresh : (admitsIn ⟨Function.update l.data k (some ⟨1, x + l.window⟩), l.max,
          l.window⟩ cs k a b : Int) + 1 ≤ l.max := by
        have := admitsIn_one_window k a b cs
          ⟨Function.update l.data k (some ⟨1, x + l.window⟩), l.max, l.window⟩
          ⟨1, x + l.window⟩ (by simp) hmax (by simp only; omega) hs2
        simpa using this
      cases hd : l.data k with
      | none =>
        rw [Allow_absent l x k hmax hd] at hle
        dsimp only at hle
        omega
      | some e0 =>
        have hb0 := hinv e0 hd
        by_cases hx : x > e0.ResetAt
        · rw [Allow_lapsed l x k e0 hmax hd hx] at hle
          dsimp only at hle
          omega
        · by_cases hlt : e0.Count < l.max
          · rw [Allow_active_below l x k e0 hd (by omega) hlt] at hle
            dsimp only at hle
            have := admitsIn_two_windows k a b cs
              ⟨Function.update l.data k (some ⟨e0.Count + 1, e0.ResetAt⟩), l.max, l.window⟩
              ⟨e0.Count + 1, e0.ResetAt⟩ hmax (by simp) (by simpa using hlt)
              (by simp only; omega) hs2
            simp only [] at this
            omega
          · rw [Allow_active_full l x k e0 hd (by omega) (by omega)] at hle
            dsimp only at hle
            have := admitsIn_two_windows k a b cs l e0 hmax hd hb0.2 (by omega) hs2
            omega
    · rw [admitsIn_cons_skip l (x, k) cs t a b hcount]
      exact hnext

/-! ## Claims about the rolling window and the count bound -/

/-- C6. Bounded admits per rolling window: for a limiter with `max ≥ 1` (and any window
length, `window > 0` included), started empty and called at non-decreasing times with any
tokens, the admitted calls of one token `t` whose times lie in a closed interval `[a, b]`
of length at most `window` number at most `2 * max`. -/
theorem admits_bounded_per_rolling_window (max window : Int) (hmax : 1 ≤ max)
    (cs : List (Int × String)) (hs : cs.Pairwise (fun c d => c.1 ≤ d.1))
    (t : String) (a b : Int) (hab : b - a ≤ window) :
    (admitsIn (NewTokenLimiter max window) cs t a b : Int) ≤ 2 * max :=
  admitsIn_le_two_max t a b cs (NewTokenLimiter max window) hmax hab
    (fun e he => by simp [NewTokenLimiter] at he) hs

/-- C6, at `max = 2`, `window = 10`: of the calls at 0, 9, 10, 11, 12, 13 with token
`"t"` (one call of `"u"` in between), those at 9, 11 and 12 are the admitted ones in
`[9, 19]`. -/
theorem admits_bounded_per_rolling_window_witness :
    admitsIn (NewTokenLimiter 2 10)
        [(0, "t"), (9, "t"), (10, "t"), (10, "u"), (11, "t"), (12, "t"), (13, "t")] "t" 9 19 = 3 ∧
      (admitsIn (NewTokenLimiter 2 10)
        [(0, "t"), (9, "t"), (10, "t"), (10, "u"), (11, "t"), (12, "t"), (13, "t")] "t" 9 19 : Int)
        ≤ 2 * 2 :=
  ⟨by decide, admits_bounded_per_rolling_window 2 10 (by decide)
    [(0, "t"), (9, "t"), (10, "t"), (10, "u"), (11, "t"), (12, "t"), (13, "t")] (by decide)
    "t" 9 19 (by decide)⟩

/-- C10. Count bound invariant: for a limiter built with `max ≥ 1`, in every state
reached from the empty state by any run of `Allow` calls (any tokens, any times), every
stored entry has `0 ≤ count ≤ max`. -/
theorem count_bound_invariant (max window : Int) (hmax : 1 ≤ max) (cs : List (Int × String))
    (k : String) (e : tokenEntry)
    (h : (runCalls (NewTokenLimiter max window) cs).data k = some e) :
    0 ≤ e.Count ∧ e.Count ≤ max := by
  have hb := runCalls_countsBounded cs (NewTokenLimiter max window) hmax
    (fun k2 e2 h2 => by simp [NewTokenLimiter] at h2) k e h
  rw [runCalls_max] at hb
  exact hb

/-- C10, at `max = 1`: after one admitted and two denied calls the entry is
`count = 1, resetAt = 10`. -/
theorem count_bound_invariant_witness :
    (runCalls (NewTokenLimiter 1 10) [(0, "t"), (1, "t"), (2, "t")]).data "t" = some ⟨1, 10⟩ ∧
      (0 ≤ (⟨1, 10⟩ : tokenEntry).Count ∧ (⟨1, 10⟩ : tokenEntry).Count ≤ 1) :=
  ⟨by decide, count_bound_invariant 1 10 (by decide) [(0, "t"), (1, "t"), (2, "t")] "t" ⟨1, 10⟩
    (by decide)⟩

/-! ## Lists of characters: trimming and cutting -/

theorem rdropWhile_cons_nil {α : Type} (p : α → Bool) (x : α) (xs : List α)
    (hx : p x = true) (hn : xs.rdropWhile p = []) : (x :: xs).rdropWhile p = [] := by
  rw [List.rdropWhile_eq_nil_iff] at hn ⊢
  intro y hy
  rcases List.mem_cons.1 hy with rfl | h
  · exact hx
  · exact hn y h

theorem rdropWhile_cons_keep {α : Type} (p : α → Bool) (x : α) (xs : List α)
    (h : ¬ p x = true ∨ xs.rdropWhile p ≠ []) :
    (x :: xs).rdropWhile p = x :: xs.rdropWhile p := by
  induction xs using List.reverseRecOn with
  | nil =>
    rcases h with h | h
    · rw [List.rdropWhile_singleton, if_neg h, List.rdropWhile_nil]
    · exact absurd (List.rdropWhile_nil p) h
  | append_singleton ys y ih =>
    rw [← List.cons_append]
    by_cases hy : p y = true
    · rw [List.rdropWhile_concat_pos _ _ _ hy, List.rdropWhile_concat_pos _ _ _ hy]
      rw [List.rdropWhile_concat_pos _ _ _ hy] at h
      exact ih h
    · rw [List.rdropWhile_concat_neg _ _ _ hy, List.rdropWhile_concat_neg _ _ _ hy]
      rfl

/-- Trimming on the left and trimming on the right commute. -/
theorem dropWhile_rdropWhile_comm {α : Type} (p : α → Bool) (l : List α) :
    (l.rdropWhile p).dropWhile p = (l.dropWhile p).rdropWhile p := by
  induction l with
  | nil => simp
  | cons x xs ih =>
    by_cases hx : p x = true
    · by_cases hn : xs.rdropWhile p = []
      · rw [rdropWhile_cons_nil p x xs hx hn, List.dropWhile_cons_of_pos hx, ← ih, hn]
      · rw [rdropWhile_cons_keep p x xs (Or.inr hn), List.dropWhile_cons_of_pos hx,
          List.dropWhile_cons_of_pos hx, ih]
    · rw [rdropWhile_cons_keep p x xs (Or.inl hx), List.dropWhile_cons_of_neg hx,
        List.dropWhile_cons_of_neg hx, rdropWhile_cons_keep p x xs (Or.inl hx)]

/-- Cutting a list at the first occurrence of `c` keeps the elements before it. -/
theorem take_indexOf_eq_takeWhile (c : Char) (l : List Char) :
    l.take (l.indexOf c) = l.takeWhile (fun x => decide (x ≠ c)) := by
  induction l with
  | nil => simp
  | cons x xs ih =>
    by_cases hx : x = c
    · subst hx; simp
    · rw [List.indexOf_cons_ne _ hx, List.take_succ_cons, ih, List.takeWhile_cons_of_pos]
      simpa using hx

/-! ## The Go string functions on the characters of a string -/

theorem HasPrefix_iff (s p : String) : HasPrefix s p = true ↔ p.data <+: s.data := by
  unfold HasPrefix
  exact List.isPrefixOf_iff_prefix

theorem TrimPrefix_data (s p : String) (h : p.data <+: s.data) :
    (TrimPrefix s p).data = s.data.drop p.data.length := by
  unfold TrimPrefix
  rw [if_pos ((HasPrefix_iff s p).2 h)]

theorem Trim_slash_data (s : String) :
    (Trim s "/").data
      = (s.data.rdropWhile (fun c => decide (c = '/'))).dropWhile (fun c => decide (c = '/')) := by
  have hq : (fun c : Char => ("/" : String).data.contains c) = fun c => decide (c = '/') := by
    funext c
    show List.elem c ['/'] = decide (c = '/')
    by_cases h : c = '/'
    · subst h; rfl
    · have hb : (c == '/') = false := by simpa using h
      simp [List.elem, hb, h]
  unfold Trim TrimLeft TrimRight
  simp only [hq, List.rdropWhile]

theorem String_eq_empty_iff (s : String) : s = "" ↔ s.data = [] := by
  constructor
  · intro h; rw [h]
  · intro h; exact String.ext h

/-- Cutting at `IndexRune` keeps what stands before the first `c`, or everything. -/
theorem cut_at_IndexRune (s : String) (c : Char) :
    (if IndexRune s c ≥ 0 then sliceTo s (IndexRune s c) else s)
      = ⟨s.data.takeWhile (fun x => decide (x ≠ c))⟩ := by
  unfold IndexRune sliceTo
  by_cases h : s.data.indexOf c < s.data.length
  · simp only [h, if_true]
    rw [if_pos (by omega), Int.toNat_ofNat, take_indexOf_eq_takeWhile]
  · simp only [h, if_false]
    rw [if_neg (by omega)]
    have hlen : s.data.indexOf c = s.data.length :=
      le_antisymm List.indexOf_le_length (by omega)
    have := take_indexOf_eq_takeWhile c s.data
    rw [hlen, List.take_length] at this
    rw [← this]

/-- The extractor and its specification agree for every non-empty prefix. -/
theorem extract_eq_extractSpec (path : String) (cfg : Config) (hne : cfg.ShortPrefix ≠ "") :
    extractTokenFromRequest path cfg = extractSpec path cfg.ShortPrefix := by
  unfold extractTokenFromRequest extractSpec
  simp only [hne, if_false]
  by_cases hp : cfg.ShortPrefix.data <+: path.data
  · have hp2 : HasPrefix path cfg.ShortPrefix = true := (HasPrefix_iff _ _).2 hp
    simp only [hp2, hp, if_true, Bool.not_true, Bool.false_eq_true, if_false]
    have hdata := Trim_slash_data (TrimPrefix path cfg.ShortPrefix)
    rw [TrimPrefix_data _ _ hp, dropWhile_rdropWhile_comm] at hdata
    rw [cut_at_IndexRune]
    by_cases he : Trim (TrimPrefix path cfg.ShortPrefix) "/" = ""
    · have he2 := (String_eq_empty_iff _).1 he
      rw [hdata] at he2
      rw [if_pos he, if_pos he2]
    · have he2 := fun h => he ((String_eq_empty_iff _).2 h)
      rw [hdata] at he2
      rw [if_neg he, if_neg he2, hdata]
  · have hp2 : HasPrefix path cfg.ShortPrefix = false := by
      cases h : HasPrefix path cfg.ShortPrefix with
      | false => rfl
      | true => exact absurd ((HasPrefix_iff _ _).1 h) hp
    simp [hp2, hp]

/-- With the prefix `"/s/"` the extractor yields `"xyz"` on `"/s/xyz"`. -/
theorem extract_s_xyz (cfg : Config) (h : cfg.ShortPrefix = "/s/") :
    extractTokenFromRequest "/s/xyz" cfg = "xyz" := by
  simp only [extractTokenFromRequest, h]
  decide

/-- No token is extracted when the path does not start with the prefix in force, or
when only slashes follow it. -/
theorem extract_empty_of (path : String) (cfg : Config)
    (h : HasPrefix path (if cfg.ShortPrefix = "" then "/s/" else cfg.ShortPrefix) = false ∨
      ∀ c ∈ path.data.drop
        (if cfg.ShortPrefix = "" then "/s/" else cfg.ShortPrefix).data.length, c = '/') :
    extractTokenFromRequest path cfg = "" := by
  unfold extractTokenFromRequest
  simp only []
  generalize (if cfg.ShortPrefix = "" then "/s/" else cfg.ShortPrefix) = pfx at h ⊢
  cases hp : HasPrefix path pfx with
  | false => simp
  | true =>
    rcases h with h | h
    · rw [hp] at h; cases h
    · have hdata := Trim_slash_data (TrimPrefix path pfx)
      rw [TrimPrefix_data _ _ ((HasPrefix_iff _ _).1 hp)] at hdata
      have hnil : (path.data.drop pfx.data.length).rdropWhile (fun c => decide (c = '/')) = [] := by
        rw [List.rdropWhile_eq_nil_iff]
        intro c hc
        simpa using h c hc
      rw [hnil, List.dropWhile_nil] at hdata
      have he : Trim (TrimPrefix path pfx) "/" = "" := (String_eq_empty_iff _).2 hdata
      simp [he]

/-! ## Claims about the extractor and the gate -/

/-- C7. Token extraction equals its reference definition: for every path and every
non-empty prefix (slash-terminated or not), the extractor returns what the specification
describes: empty when the path does not start with the prefix, and otherwise the part
before the first `'/'` of the path stripped of the prefix and of all leading and trailing
`'/'`. With the prefix `"/s/"`: `"/s/abc123"` and `"/s/abc123/extra"` give `"abc123"`,
`"/s/"` and `"/other/abc"` give the empty string. -/
theorem extract_matches_reference :
    (∀ (path : String) (cfg : Config), cfg.ShortPrefix ≠ "" →
      extractTokenFromRequest path cfg = extractSpec path cfg.ShortPrefix) ∧
    (∀ cfg : Config, cfg.ShortPrefix = "/s/" →
      extractTokenFromRequest "/s/abc123" cfg = "abc123" ∧
      extractTokenFromRequest "/s/abc123/extra" cfg = "abc123" ∧
      extractTokenFromRequest "/s/" cfg = "" ∧
      extractTokenFromRequest "/other/abc" cfg = "") := by
  refine ⟨fun path cfg hne => extract_eq_extractSpec path cfg hne, ?_⟩
  intro cfg h
  simp only [extractTokenFromRequest, h]
  decide

/-- C7, at a path with doubled and trailing slashes. -/
theorem extract_matches_reference_witness :
    extractTokenFromRequest "/s//abc/def/" ⟨":8080", "http://x", "/s/", 10, "24h"⟩ = "abc" ∧
      extractSpec "/s//abc/def/" "/s/" = "abc" ∧
      extractTokenFromRequest "/s/abc123/extra" ⟨":8080", "http://x", "/s/", 10, "24h"⟩
        = "abc123" :=
  ⟨(extract_matches_reference.1 "/s//abc/def/" ⟨":8080", "http://x", "/s/", 10, "24h"⟩
      (by decide)).trans (by decide), by decide,
    (extract_matches_reference.2 ⟨":8080", "http://x", "/s/", 10, "24h"⟩ rfl).2.1⟩

/-- C8. No-token requests never perturb quota state: a request whose path does not start
with the prefix, or has nothing but slashes after it, yields the empty token; and for every
limiter state, time and request that yields the empty token, the gate answers 400, calls
`Allow` not at all, and leaves the limiter exactly as it was. -/
theorem gate_no_token_untouched (cfg : Config) (l : TokenLimiter) (now : Int) (path : String) :
    ((HasPrefix path (if cfg.ShortPrefix = "" then "/s/" else cfg.ShortPrefix) = false ∨
        ∀ c ∈ path.data.drop
          (if cfg.ShortPrefix = "" then "/s/" else cfg.ShortPrefix).data.length, c = '/') →
      extractTokenFromRequest path cfg = "") ∧
    (extractTokenFromRequest path cfg = "" →
      (limitAndProxy cfg l now path).outcome = Outcome.badRequest ∧
      (limitAndProxy cfg l now path).outcome.status = some 400 ∧
      (limitAndProxy cfg l now path).allowCalls = [] ∧
      (limitAndProxy cfg l now path).limiter = l) := by
  refine ⟨extract_empty_of path cfg, ?_⟩
  intro h
  simp [limitAndProxy, h, Outcome.status]

/-- C8, on the state left by one admitted request of `"xyz"`: the request `"/s/"`. -/
theorem gate_no_token_untouched_witness :
    (limitAndProxy ⟨":8080", "http://x", "/s/", 1, "1h"⟩
        (Allow (NewTokenLimiter 1 3600) 0 "xyz").2 1 "/s/").outcome = Outcome.badRequest ∧
      (limitAndProxy ⟨":8080", "http://x", "/s/", 1, "1h"⟩
        (Allow (NewTokenLimiter 1 3600) 0 "xyz").2 1 "/s/").allowCalls = [] ∧
      (limitAndProxy ⟨":8080", "http://x", "/s/", 1, "1h"⟩
        (Allow (NewTokenLimiter 1 3600) 0 "xyz").2 1 "/s/").limiter
        = (Allow (NewTokenLimiter 1 3600) 0 "xyz").2 := by
  have h := gate_no_token_untouched ⟨":8080", "http://x", "/s/", 1, "1h"⟩
    (Allow (NewTokenLimiter 1 3600) 0 "xyz").2 1 "/s/"
  have h2 := h.2 (h.1 (Or.inr (by decide)))
  exact ⟨h2.1, h2.2.2.1, h2.2.2.2⟩

/-- C9. Gate decision: the gate extracts the token once and answers 400 without calling
`Allow` when it is empty; otherwise it calls `Allow` once, with the extracted token, takes
over the limiter that call leaves, and answers 429 when the call denies and forwards when
it admits. With the prefix `"/s/"`, `max = 1` and a window `w` on the empty state: a
request to `"/s/xyz"` is forwarded and leaves count 1, and a second one made no later than
the end of that window gets 429 and leaves count 1. -/
theorem gate_decision (cfg : Config) (l : TokenLimiter) (now : Int) (path : String) :
    (extractTokenFromRequest path cfg = "" →
      (limitAndProxy cfg l now path).outcome = Outcome.badRequest ∧
      (limitAndProxy cfg l now path).allowCalls = [] ∧
      (limitAndProxy cfg l now path).limiter = l) ∧
    (extractTokenFromRequest path cfg ≠ "" →
      (limitAndProxy cfg l now path).allowCalls = [extractTokenFromRequest path cfg] ∧
      (limitAndProxy cfg l now path).limiter
        = (Allow l now (extractTokenFromRequest path cfg)).2 ∧
      ((Allow l now (extractTokenFromRequest path cfg)).1.1 = false →
        (limitAndProxy cfg l now path).outcome = Outcome.tooManyRequests) ∧
      ((Allow l now (extractTokenFromRequest path cfg)).1.1 = true →
        (limitAndProxy cfg l now path).outcome = Outcome.forwarded)) ∧
    (∀ (w now2 : Int), cfg.ShortPrefix = "/s/" → now2 ≤ now + w →
      (limitAndProxy cfg (NewTokenLimiter 1 w) now "/s/xyz").outcome = Outcome.forwarded ∧
      (limitAndProxy cfg (NewTokenLimiter 1 w) now "/s/xyz").limiter.data "xyz"
        = some ⟨1, now + w⟩ ∧
      (limitAndProxy cfg (limitAndProxy cfg (NewTokenLimiter 1 w) now "/s/xyz").limiter
        now2 "/s/xyz").outcome = Outcome.tooManyRequests ∧
      (limitAndProxy cfg (limitAndProxy cfg (NewTokenLimiter 1 w) now "/s/xyz").limiter
        now2 "/s/xyz").limiter.data "xyz" = some ⟨1, now + w⟩) := by
  refine ⟨?_, ?_, ?_⟩
  · intro h
    simp [limitAndProxy, h]
  · intro h
    unfold limitAndProxy
    simp only [h, if_false]
    cases hr : (Allow l now (extractTokenFromRequest path cfg)).1.1 <;> simp
  · intro w now2 hp hle
    have hfirst : Allow (NewTokenLimiter 1 w) now "xyz" = ((true, 1),
        ⟨Function.update (NewTokenLimiter 1 w).data "xyz" (some ⟨1, now + w⟩), 1, w⟩) :=
      Allow_absent (NewTokenLimiter 1 w) now "xyz" (le_refl _) rfl
    have hg1 : limitAndProxy cfg (NewTokenLimiter 1 w) now "/s/xyz" =
        ⟨Outcome.forwarded,
          ⟨Function.update (NewTokenLimiter 1 w).data "xyz" (some ⟨1, now + w⟩), 1, w⟩,
          ["xyz"]⟩ := by
      unfold limitAndProxy
      simp [extract_s_xyz cfg hp, hfirst]
    have hsecond : Allow
        ⟨Function.update (NewTokenLimiter 1 w).data "xyz" (some ⟨1, now + w⟩), 1, w⟩ now2 "xyz"
        = ((false, 1),
          ⟨Function.update (NewTokenLimiter 1 w).data "xyz" (some ⟨1, now + w⟩), 1, w⟩) :=
      Allow_active_full _ now2 "xyz" ⟨1, now + w⟩ (by simp) hle (le_refl _)
    rw [hg1]
    refine ⟨rfl, by simp, ?_, ?_⟩
    · unfold limitAndProxy
      simp [extract_s_xyz cfg hp, hsecond]
    · unfold limitAndProxy
      simp [extract_s_xyz cfg hp, hsecond]

/-- C9, at `max = 1`, a window of one hour (in seconds), requests at the times 0 and 1. -/
theorem gate_decision_witness :
    (limitAndProxy ⟨":8080", "http://x", "/s/", 1, "1h"⟩ (NewTokenLimiter 1 3600) 0
        "/s/xyz").outcome = Outcome.forwarded ∧
      (limitAndProxy ⟨":8080", "http://x", "/s/", 1, "1h"⟩
        (limitAndProxy ⟨":8080", "http://x", "/s/", 1, "1h"⟩ (NewTokenLimiter 1 3600) 0
          "/s/xyz").limiter 1 "/s/xyz").outcome = Outcome.tooManyRequests ∧
      (limitAndProxy ⟨":8080", "http://x", "/s/", 1, "1h"⟩
        (limitAndProxy ⟨":8080", "http://x", "/s/", 1, "1h"⟩ (NewTokenLimiter 1 3600) 0
          "/s/xyz").limiter 1 "/s/xyz").limiter.data "xyz" = some ⟨1, 3600⟩ := by
  have h := (gate_decision ⟨":8080", "http://x", "/s/", 1, "1h"⟩ (NewTokenLimiter 1 3600) 0
    "/s/xyz").2.2 3600 1 rfl (by decide)
  exact ⟨h.1, h.2.2.1, h.2.2.2⟩

/-! ## Keys of the limiter map -/

/-- After `Allow(t)` the token `t` has an entry. -/
theorem Allow_data_self_isSome (l : TokenLimiter) (now : Int) (t : String) :
    ((Allow l now t).2.data t).isSome = true := by
  unfold Allow lookupOrReset
  cases hd : l.data t with
  | none => simp only []; split <;> simp
  | some e =>
    simp only []
    by_cases hr : now > e.ResetAt
    · simp only [hr, if_true]; split <;> simp
    · simp only [hr, if_false]; split <;> simp [hd]

/-- The keys after `Allow(t)` are the keys before, and `t`. -/
theorem Allow_keys (l : TokenLimiter) (now : Int) (t k : String) :
    ((Allow l now t).2.data k).isSome = true ↔ (l.data k).isSome = true ∨ k = t := by
  by_cases hk : k = t
  · subst hk
    simp [Allow_data_self_isSome]
  · rw [Allow_data_ne l now t k hk]
    simp [hk]

/-- A run of calls removes no key. -/
theorem runCalls_keys_mono (cs : List (Int × String)) :
    ∀ (l : TokenLimiter) (k : String), (l.data k).isSome = true →
      ((runCalls l cs).data k).isSome = true := by
  induction cs with
  | nil => intro l k h; exact h
  | cons c cs ih =>
    intro l k h
    simp only [runCalls]
    exact ih _ k ((Allow_keys l c.1 c.2 k).2 (Or.inl h))

/-- The keys after a run are the keys before and the tokens of the run. -/
theorem runCalls_keys (cs : List (Int × String)) :
    ∀ (l : TokenLimiter) (k : String), ((runCalls l cs).data k).isSome = true ↔
      ((l.data k).isSome = true ∨ ∃ c ∈ cs, c.2 = k) := by
  induction cs with
  | nil => intro l k; simp [runCalls]
  | cons c cs ih =>
    intro l k
    simp only [runCalls]
    rw [ih, Allow_keys]
    constructor
    · rintro ((h | h) | ⟨d, hd, hdk⟩)
      · exact Or.inl h
      · exact Or.inr ⟨c, List.mem_cons_self _ _, h.symm⟩
      · exact Or.inr ⟨d, List.mem_cons_of_mem _ hd, hdk⟩
    · rintro (h | ⟨d, hd, hdk⟩)
      · exact Or.inl (Or.inl h)
      · rcases List.mem_cons.1 hd with rfl | hd2
        · exact Or.inl (Or.inr hdk.symm)
        · exact Or.inr ⟨d, hd2, hdk⟩

/-! ## The end of the window across a call -/

/-- Outside the reset branch the entry keeps its `resetAt`. -/
theorem Allow_keep_resetAt (l : TokenLimiter) (now : Int) (t : String) (e : tokenEntry)
    (hd : l.data t = some e) (hr : now ≤ e.ResetAt) :
    ∃ e2, (Allow l now t).2.data t = some e2 ∧ e2.ResetAt = e.ResetAt := by
  by_cases hc : e.Count < l.max
  · rw [Allow_active_below l now t e hd hr hc]
    exact ⟨⟨e.Count + 1, e.ResetAt⟩, by simp, rfl⟩
  · rw [Allow_active_full l now t e hd hr (by omega)]
    exact ⟨e, hd, rfl⟩

/-- The reset branch sets `resetAt` to `now + window`, whatever `max` is. -/
theorem Allow_reset_resetAt (l : TokenLimiter) (now : Int) (t : String)
    (h : l.data t = none ∨ ∃ e, l.data t = some e ∧ e.ResetAt < now) :
    ∃ e2, (Allow l now t).2.data t = some e2 ∧ e2.ResetAt = now + l.window := by
  have hfresh : lookupOrReset l now t
      = (⟨0, now + l.window⟩, Function.update l.data t (some ⟨0, now + l.window⟩)) := by
    rcases h with h | ⟨e, he, hr⟩
    · simp [lookupOrReset, h]
    · simp [lookupOrReset, he, hr]
  unfold Allow
  rw [hfresh]
  by_cases hc : (0 : Int) ≥ l.max
  · simp only [hc, if_true]
    exact ⟨⟨0, now + l.window⟩, by simp, rfl⟩
  · simp only [hc, if_false]
    exact ⟨⟨0 + 1, now + l.window⟩, by simp, rfl⟩

/-! ## Claims about keys, repeated calls and the window -/

/-- C11. No eviction: for every limiter state, token and time, the keys after
`Allow(token)` are exactly the keys before together with `token`; a lapsed entry is
overwritten under its key (it is still there, with `resetAt = now + window`); and over any
run of calls the keys are those of the start together with the tokens called, so no key
is ever removed. -/
theorem allow_no_eviction (l : TokenLimiter) (now : Int) (t : String) :
    (∀ k : String,
      ((Allow l now t).2.data k).isSome = true ↔ ((l.data k).isSome = true ∨ k = t)) ∧
    (∀ e : tokenEntry, l.data t = some e → e.ResetAt < now →
      ∃ e2, (Allow l now t).2.data t = some e2 ∧ e2.ResetAt = now + l.window) ∧
    (∀ (cs : List (Int × String)) (k : String),
      (((runCalls l cs).data k).isSome = true ↔
        ((l.data k).isSome = true ∨ ∃ c ∈ cs, c.2 = k)) ∧
      ((l.data k).isSome = true → ((runCalls l cs).data k).isSome = true)) := by
  refine ⟨fun k => Allow_keys l now t k, ?_, ?_⟩
  · intro e he hr
    exact Allow_reset_resetAt l now t (Or.inr ⟨e, he, hr⟩)
  · intro cs k
    exact ⟨runCalls_keys cs l k, runCalls_keys_mono cs l k⟩

/-- C11, on the state left by a call of `"a"` at time 0 (`window = 10`): a call of `"a"`
at time 50 overwrites the lapsed entry, and a call of `"b"` keeps the key `"a"`. -/
theorem allow_no_eviction_witness :
    (∃ e2, (Allow (Allow (NewTokenLimiter 1 10) 0 "a").2 50 "a").2.data "a" = some e2 ∧
        e2.ResetAt = 50 + (Allow (NewTokenLimiter 1 10) 0 "a").2.window) ∧
      ((Allow (Allow (NewTokenLimiter 1 10) 0 "a").2 50 "b").2.data "a").isSome = true := by
  have h := allow_no_eviction (Allow (NewTokenLimiter 1 10) 0 "a").2 50
  exact ⟨(h "a").2.1 ⟨1, 10⟩ (by decide) (by decide),
    ((h "b").1 "a").2 (Or.inl (by decide))⟩

/-- C12, as stated, fails. With `max = 1`, `window = 10` and the entry
`count = 1, resetAt = 10` left by a call at time 0, the calls at the times 1 and 2 take no
reset and both return `(false, 1)`. With `max = 2` the calls at 1 and 2 return `(true, 2)`
and `(false, 2)`: the same count again. -/
theorem allow_repeated_same_count :
    ((Allow (NewTokenLimiter 1 10) 0 "t").2.data "t" = some ⟨1, 10⟩ ∧
      (Allow (Allow (NewTokenLimiter 1 10) 0 "t").2 1 "t").1 = (false, 1) ∧
      (Allow (Allow (Allow (NewTokenLimiter 1 10) 0 "t").2 1 "t").2 2 "t").1 = (false, 1)) ∧
    ((Allow (NewTokenLimiter 2 10) 0 "t").2.data "t" = some ⟨1, 10⟩ ∧
      (Allow (Allow (NewTokenLimiter 2 10) 0 "t").2 1 "t").1 = (true, 2) ∧
      (Allow (Allow (Allow (NewTokenLimiter 2 10) 0 "t").2 1 "t").2 2 "t").1 = (false, 2)) := by
  decide

/-- C12, amended. For every limiter, state and token with a stored entry `e`, two
consecutive calls of `Allow` with that token, neither of which takes the reset branch
(`now1 ≤ e.ResetAt` and `now2 ≤ e.ResetAt`), return different counts exactly when the
second call is admitted, which is exactly when `e.Count + 1 < max`; the second count is
then the first plus one. When the second call is denied both calls return the same
count. -/
theorem allow_repeated_counts (l : TokenLimiter) (t : String) (e : tokenEntry)
    (now1 now2 : Int) (hd : l.data t = some e) (h1 : now1 ≤ e.ResetAt)
    (h2 : now2 ≤ e.ResetAt) :
    ((Allow (Allow l now1 t).2 now2 t).1.2 ≠ (Allow l now1 t).1.2 ↔
        (Allow (Allow l now1 t).2 now2 t).1.1 = true) ∧
    ((Allow (Allow l now1 t).2 now2 t).1.1 = true ↔ e.Count + 1 < l.max) ∧
    ((Allow (Allow l now1 t).2 now2 t).1.1 = true →
      (Allow (Allow l now1 t).2 now2 t).1.2 = (Allow l now1 t).1.2 + 1) ∧
    ((Allow (Allow l now1 t).2 now2 t).1.1 = false →
      (Allow (Allow l now1 t).2 now2 t).1.2 = (Allow l now1 t).1.2) := by
  by_cases hc : e.Count < l.max
  · rw [Allow_active_below l now1 t e hd h1 hc]
    have hd2 : (⟨Function.update l.data t (some ⟨e.Count + 1, e.ResetAt⟩), l.max, l.window⟩ :
        TokenLimiter).data t = some ⟨e.Count + 1, e.ResetAt⟩ := by simp
    by_cases hc2 : e.Count + 1 < l.max
    · rw [Allow_active_below _ now2 t ⟨e.Count + 1, e.ResetAt⟩ hd2 h2 hc2]
      simp [hc2]
    · rw [Allow_active_full _ now2 t ⟨e.Count + 1, e.ResetAt⟩ hd2 h2 (by simp only; omega)]
      simp [hc2]
  · have hfull : l.max ≤ e.Count := by omega
    rw [Allow_active_full l now1 t e hd h1 hfull,
      Allow_active_full l now2 t e hd h2 hfull]
    have : ¬ e.Count + 1 < l.max := by omega
    simp [this]

/-- C12 amended, at `max = 3` on the entry `count = 1, resetAt = 10`: the calls at 1 and
2 return the counts 2 and 3. -/
theorem allow_repeated_counts_witness :
    (Allow (Allow (Allow (NewTokenLimiter 3 10) 0 "t").2 1 "t").2 2 "t").1.2
      = (Allow (Allow (NewTokenLimiter 3 10) 0 "t").2 1 "t").1.2 + 1 :=
  (allow_repeated_counts (Allow (NewTokenLimiter 3 10) 0 "t").2 "t" ⟨1, 10⟩ 1 2
    (by decide) (by decide) (by decide)).2.2.1 (by decide)

/-- C13. The window is fixed, not sliding: for every limiter state, token and time, when
`Allow(token)` does not take the reset branch (the token has an entry `e` and
`now ≤ e.ResetAt`), the entry after the call has the `resetAt` it had before, whether
the call is admitted or denied; when it takes the reset branch (no entry, or
`e.ResetAt < now`) the entry after the call has `resetAt = now + window`; and the entries
of all other tokens are untouched. -/
theorem allow_fixed_window (l : TokenLimiter) (now : Int) (t : String) :
    (∀ e : tokenEntry, l.data t = some e → now ≤ e.ResetAt →
      ∃ e2, (Allow l now t).2.data t = some e2 ∧ e2.ResetAt = e.ResetAt) ∧
    ((l.data t = none ∨ ∃ e, l.data t = some e ∧ e.ResetAt < now) →
      ∃ e2, (Allow l now t).2.data t = some e2 ∧ e2.ResetAt = now + l.window) ∧
    (∀ k : String, k ≠ t → (Allow l now t).2.data k = l.data k) := by
  refine ⟨?_, ?_, ?_⟩
  · intro e hd hr
    exact Allow_keep_resetAt l now t e hd hr
  · intro h
    exact Allow_reset_resetAt l now t h
  · intro k hk
    exact Allow_data_ne l now t k hk

/-- C13, at `max = 1`, `window = 10`, entry `count = 1, resetAt = 10`: a denied call at
time 7 keeps `resetAt = 10`, and a first call of `"u"` at time 7 sets `resetAt = 17`. -/
theorem allow_fixed_window_witness :
    (∃ e2, (Allow (Allow (NewTokenLimiter 1 10) 0 "t").2 7 "t").2.data "t" = some e2 ∧
        e2.ResetAt = (⟨1, 10⟩ : tokenEntry).ResetAt) ∧
      (∃ e2, (Allow (Allow (NewTokenLimiter 1 10) 0 "t").2 7 "u").2.data "u" = some e2 ∧
        e2.ResetAt = 7 + (Allow (NewTokenLimiter 1 10) 0 "t").2.window) :=
  ⟨(allow_fixed_window (Allow (NewTokenLimiter 1 10) 0 "t").2 7 "t").1 ⟨1, 10⟩
      (by decide) (by decide),
    (allow_fixed_window (Allow (NewTokenLimiter 1 10) 0 "t").2 7 "u").2.1
      (Or.inl (by decide))⟩

/-! ## The segment left after trimming -/

/-- Trimming on the right stops at a block that ends without a match. -/
theorem rdropWhile_append_keep {α : Type} (p : α → Bool) (t u : List α)
    (hs : ∀ x ∈ t, p x = false) : (t ++ u).rdropWhile p = t ++ u.rdropWhile p := by
  induction u using List.reverseRecOn with
  | nil =>
    rw [List.append_nil, List.rdropWhile_nil, List.append_nil, List.rdropWhile_eq_self_iff]
    intro hl
    rw [hs _ (List.getLast_mem hl)]
    simp
  | append_singleton ys y ih =>
    rw [← List.append_assoc]
    by_cases hy : p y = true
    · rw [List.rdropWhile_concat_pos _ _ _ hy, List.rdropWhile_concat_pos _ _ _ hy, ih]
    · rw [List.rdropWhile_concat_neg _ _ _ hy, List.rdropWhile_concat_neg _ _ _ hy,
        List.append_assoc]

/-- A list that starts with a match is, after trimming on the right, empty or still
starts with that match. -/
theorem rdropWhile_cons_cases {α : Type} (p : α → Bool) (x : α) (v : List α)
    (hx : p x = true) :
    (x :: v).rdropWhile p = [] ∨ (x :: v).rdropWhile p = x :: v.rdropWhile p := by
  by_cases hn : v.rdropWhile p = []
  · exact Or.inl (rdropWhile_cons_nil p x v hx hn)
  · exact Or.inr (rdropWhile_cons_keep p x v (Or.inr hn))

/-- Nothing is left after trimming the slashes exactly when there are only slashes. -/
theorem trimmed_eq_nil_iff (s : List Char) :
    (s.dropWhile (fun c => decide (c = '/'))).rdropWhile (fun c => decide (c = '/')) = [] ↔
      ∀ c ∈ s, c = '/' := by
  rw [List.rdropWhile_eq_nil_iff]
  constructor
  · intro h
    cases hd : s.dropWhile (fun c => decide (c = '/')) with
    | nil =>
      intro c hc
      simpa using (List.dropWhile_eq_nil_iff.1 hd) c hc
    | cons x xs =>
      have hx := List.head?_dropWhile_not (fun c => decide (c = '/')) s
      rw [hd] at hx h
      have hx2 := h x (List.mem_cons_self _ _)
      simp only [List.head?_cons] at hx
      rw [hx] at hx2
      cases hx2
  · intro h
    have hd : s.dropWhile (fun c => decide (c = '/')) = [] :=
      List.dropWhile_eq_nil_iff.2 (fun c hc => by simpa using h c hc)
    rw [hd]
    intro x hx
    cases hx

/-- What is left after trimming the slashes, when something is, starts with a segment. -/
theorem takeWhile_trimmed_ne_nil (s : List Char)
    (h : (s.dropWhile (fun c => decide (c = '/'))).rdropWhile (fun c => decide (c = '/')) ≠ []) :
    ((s.dropWhile (fun c => decide (c = '/'))).rdropWhile
      (fun c => decide (c = '/'))).takeWhile (fun x => decide (x ≠ '/')) ≠ [] := by
  cases hd : s.dropWhile (fun c => decide (c = '/')) with
  | nil => rw [hd] at h; exact absurd (List.rdropWhile_nil _) h
  | cons x xs =>
    have hx := List.head?_dropWhile_not (fun c => decide (c = '/')) s
    rw [hd] at hx
    simp only [List.head?_cons] at hx
    have hx2 : ¬ (fun c => decide (c = '/')) x = true := by
      show ¬ decide (x = '/') = true
      rw [hx]; simp
    rw [rdropWhile_cons_keep _ x xs (Or.inl hx2)]
    have hx3 : x ≠ '/' := by simpa using hx
    rw [List.takeWhile_cons_of_pos (by simpa using hx3)]
    exact List.cons_ne_nil _ _

/-- A slash-free block followed by nothing, or by a slash and anything, is the segment
cut out of it. -/
theorem segment_of_token (t u : List Char) (ht : t ≠ []) (hs : ∀ c ∈ t, c ≠ '/')
    (hu : u = [] ∨ ∃ v, u = '/' :: v) :
    ((t ++ u).dropWhile (fun c => decide (c = '/'))).rdropWhile (fun c => decide (c = '/')) ≠ [] ∧
      (((t ++ u).dropWhile (fun c => decide (c = '/'))).rdropWhile
        (fun c => decide (c = '/'))).takeWhile (fun x => decide (x ≠ '/')) = t := by
  have hp : ∀ x ∈ t, (fun c : Char => decide (c = '/')) x = false :=
    fun x hx => by simpa using hs x hx
  have hdrop : (t ++ u).dropWhile (fun c => decide (c = '/')) = t ++ u := by
    cases t with
    | nil => exact absurd rfl ht
    | cons x xs =>
      rw [List.cons_append, List.dropWhile_cons_of_neg]
      have := hp x (List.mem_cons_self _ _)
      dsimp only at this
      rw [this]
      simp
  rw [hdrop, rdropWhile_append_keep _ t u hp]
  have htake : ∀ a ∈ t, (fun x : Char => decide (x ≠ '/')) a = true :=
    fun a ha => by simpa using hs a ha
  have hw : u.rdropWhile (fun c => decide (c = '/')) = [] ∨
      ∃ w, u.rdropWhile (fun c => decide (c = '/')) = '/' :: w := by
    rcases hu with rfl | ⟨v, rfl⟩
    · exact Or.inl (List.rdropWhile_nil _)
    · rcases rdropWhile_cons_cases (fun c => decide (c = '/')) '/' v (by simp) with h | h
      · exact Or.inl h
      · exact Or.inr ⟨_, h⟩
  constructor
  · intro h
    exact ht (List.append_eq_nil.1 h).1
  · rw [List.takeWhile_append_of_pos htake]
    rcases hw with h | ⟨w, h⟩
    · rw [h]; simp
    · rw [h, List.takeWhile_cons_of_neg (by simp)]; simp

/-- The extractor is its specification at the prefix in force (`"/s/"` for an empty one). -/
theorem extract_eq_extractSpec_inforce (path : String) (cfg : Config) :
    extractTokenFromRequest path cfg
      = extractSpec path (if cfg.ShortPrefix = "" then "/s/" else cfg.ShortPrefix) := by
  by_cases h : cfg.ShortPrefix = ""
  · rw [if_pos h]
    have h2 := extract_eq_extractSpec path { cfg with ShortPrefix := "/s/" }
      (by show ("/s/" : String) ≠ ""; decide)
    rw [← h2]
    simp [extractTokenFromRequest, h]
  · rw [if_neg h]
    exact extract_eq_extractSpec path cfg h

/-- The specified extractor never returns a slash. -/
theorem extractSpec_no_slash (path pfx : String) :
    ∀ c ∈ (extractSpec path pfx).data, c ≠ '/' := by
  intro c hc
  unfold extractSpec at hc
  split at hc
  · dsimp only at hc
    split at hc
    · cases hc
    · simpa using List.mem_takeWhile_imp hc
  · cases hc

/-- The specified extractor returns a token exactly when the path starts with the prefix
and something other than a slash follows. -/
theorem extractSpec_ne_empty_iff (path pfx : String) :
    extractSpec path pfx ≠ "" ↔
      (pfx.data <+: path.data ∧ ∃ c ∈ path.data.drop pfx.data.length, c ≠ '/') := by
  unfold extractSpec
  by_cases hp : pfx.data <+: path.data
  · simp only [hp, if_true, true_and]
    by_cases hn : ((path.data.drop pfx.data.length).dropWhile
        (fun c => decide (c = '/'))).rdropWhile (fun c => decide (c = '/')) = []
    · rw [if_pos hn]
      have hall := (trimmed_eq_nil_iff _).1 hn
      constructor
      · intro h; exact absurd rfl h
      · rintro ⟨c, hc, hne⟩; exact absurd (hall c hc) hne
    · rw [if_neg hn]
      constructor
      · intro _
        by_contra hex
        exact hn ((trimmed_eq_nil_iff _).2 (fun c hc => by
          by_contra hne
          exact hex ⟨c, hc, hne⟩))
      · intro _ h
        exact takeWhile_trimmed_ne_nil _ hn ((String_eq_empty_iff _).1 h)
  · simp [hp]

/-! ## The gate and the empty key -/

/-- One request leaves the entry of the empty string alone. -/
theorem limitAndProxy_data_empty (cfg : Config) (l : TokenLimiter) (now : Int)
    (path : String) : (limitAndProxy cfg l now path).limiter.data "" = l.data "" := by
  unfold limitAndProxy
  by_cases h : extractTokenFromRequest path cfg = ""
  · simp [h]
  · simp only [h, if_false]
    split <;> exact Allow_data_ne l now _ "" (Ne.symm h)

theorem runGate_data_empty (cfg : Config) (rs : List (Int × String)) :
    ∀ l : TokenLimiter, (runGate cfg l rs).data "" = l.data "" := by
  induction rs with
  | nil => intro l; rfl
  | cons r rs ih =>
    intro l
    simp only [runGate]
    rw [ih, limitAndProxy_data_empty]

/-! ## Claims about keys of the gate, the extractor and the configuration -/

/-- C14. Only valid tokens become limiter keys: in every limiter state reached from the
empty state by any run of requests through the gate (any paths, any times, any
configuration), every key of the limiter map is a non-empty string. -/
theorem gate_keys_nonempty (cfg : Config) (max window : Int) (rs : List (Int × String))
    (k : String)
    (h : ((runGate cfg (NewTokenLimiter max window) rs).data k).isSome = true) : k ≠ "" := by
  intro hk
  subst hk
  rw [runGate_data_empty] at h
  simp [NewTokenLimiter] at h

/-- C14, on the requests `"/s/xyz"`, `"/s/"`, `"/other"`, `"/s//"`: the key `"xyz"` is
there and the empty string is no key. -/
theorem gate_keys_nonempty_witness :
    ((runGate ⟨":8080", "http://x", "/s/", 1, "1h"⟩ (NewTokenLimiter 1 3600)
        [(0, "/s/xyz"), (1, "/s/"), (2, "/other"), (3, "/s//")]).data "xyz").isSome = true ∧
      ("xyz" : String) ≠ "" ∧
      (runGate ⟨":8080", "http://x", "/s/", 1, "1h"⟩ (NewTokenLimiter 1 3600)
        [(0, "/s/xyz"), (1, "/s/"), (2, "/other"), (3, "/s//")]).data "" = none :=
  ⟨by decide, gate_keys_nonempty ⟨":8080", "http://x", "/s/", 1, "1h"⟩ 1 3600
    [(0, "/s/xyz"), (1, "/s/"), (2, "/other"), (3, "/s//")] "xyz" (by decide), by decide⟩

/-- C15. Extraction round trip: for every non-empty prefix `p`, every non-empty token
`t` without `'/'` and every string `rest`, the extractor returns `t` itself, character
for character, on the path `p ++ t` and on the path `p ++ t ++ "/" ++ rest`. -/
theorem extract_round_trip (cfg : Config) (t rest : String) (hp : cfg.ShortPrefix ≠ "")
    (ht : t ≠ "") (hs : ∀ c ∈ t.data, c ≠ '/') :
    extractTokenFromRequest (cfg.ShortPrefix ++ t) cfg = t ∧
      extractTokenFromRequest (cfg.ShortPrefix ++ t ++ "/" ++ rest) cfg = t := by
  have ht2 : t.data ≠ [] := fun h => ht ((String_eq_empty_iff t).2 h)
  constructor
  · rw [extract_eq_extractSpec _ cfg hp]
    unfold extractSpec
    have hpre : cfg.ShortPrefix.data <+: (cfg.ShortPrefix ++ t).data := by
      rw [String.data_append]; exact List.prefix_append _ _
    have hdrop : (cfg.ShortPrefix ++ t).data.drop cfg.ShortPrefix.data.length
        = t.data ++ [] := by
      rw [String.data_append, List.drop_left, List.append_nil]
    have hseg := segment_of_token t.data [] ht2 hs (Or.inl rfl)
    rw [if_pos hpre]
    dsimp only
    rw [hdrop, if_neg hseg.1, hseg.2]
  · rw [extract_eq_extractSpec _ cfg hp]
    unfold extractSpec
    have hdata : (cfg.ShortPrefix ++ t ++ "/" ++ rest).data
        = cfg.ShortPrefix.data ++ (t.data ++ '/' :: rest.data) := by
      simp only [String.data_append, List.append_assoc]
      rfl
    have hpre : cfg.ShortPrefix.data <+: (cfg.ShortPrefix ++ t ++ "/" ++ rest).data := by
      rw [hdata]; exact List.prefix_append _ _
    have hdrop : (cfg.ShortPrefix ++ t ++ "/" ++ rest).data.drop cfg.ShortPrefix.data.length
        = t.data ++ '/' :: rest.data := by
      rw [hdata, List.drop_left]
    have hseg := segment_of_token t.data ('/' :: rest.data) ht2 hs (Or.inr ⟨_, rfl⟩)
    rw [if_pos hpre]
    dsimp only
    rw [hdrop, if_neg hseg.1, hseg.2]

/-- C15, with a token of mixed case and a percent sign, prefix `"/s/"`. -/
theorem extract_round_trip_witness :
    extractTokenFromRequest ("/s/" ++ "aB%2Fc") ⟨":8080", "http://x", "/s/", 10, "24h"⟩
        = "aB%2Fc" ∧
      extractTokenFromRequest ("/s/" ++ "aB%2Fc" ++ "/" ++ "x//y/")
        ⟨":8080", "http://x", "/s/", 10, "24h"⟩ = "aB%2Fc" :=
  extract_round_trip ⟨":8080", "http://x", "/s/", 10, "24h"⟩ "aB%2Fc" "x//y/"
    (by decide) (by decide) (by decide)

/-- C16. Extracted tokens are single segments: for every path and configuration, with
`p` the prefix in force (the configured one, `"/s/"` when that is empty), the extracted
string contains no `'/'`, and it is non-empty exactly when the path starts with `p` and
the part of the path after `p` has a character other than `'/'`; a path `p ++ "//abc/def"`
yields `"abc"`. -/
theorem extract_single_segment (path : String) (cfg : Config) :
    (∀ c ∈ (extractTokenFromRequest path cfg).data, c ≠ '/') ∧
    (extractTokenFromRequest path cfg ≠ "" ↔
      (HasPrefix path (if cfg.ShortPrefix = "" then "/s/" else cfg.ShortPrefix) = true ∧
        ∃ c ∈ path.data.drop
          (if cfg.ShortPrefix = "" then "/s/" else cfg.ShortPrefix).data.length, c ≠ '/')) ∧
    extractTokenFromRequest
      ((if cfg.ShortPrefix = "" then "/s/" else cfg.ShortPrefix) ++ "//abc/def") cfg
      = "abc" := by
  refine ⟨?_, ?_, ?_⟩
  · rw [extract_eq_extractSpec_inforce]
    exact extractSpec_no_slash _ _
  · rw [extract_eq_extractSpec_inforce, extractSpec_ne_empty_iff, HasPrefix_iff]
  · rw [extract_eq_extractSpec_inforce]
    generalize (if cfg.ShortPrefix = "" then "/s/" else cfg.ShortPrefix) = pfx
    unfold extractSpec
    have hpre : pfx.data <+: (pfx ++ "//abc/def").data := by
      rw [String.data_append]; exact List.prefix_append _ _
    have hdrop : (pfx ++ "//abc/def").data.drop pfx.data.length
        = ("//abc/def" : String).data := by
      rw [String.data_append, List.drop_left]
    rw [if_pos hpre]
    dsimp only
    rw [hdrop]
    decide

/-- C16, on `"/s///"` (only slashes follow) and on `"/s//abc/def"`. -/
theorem extract_single_segment_witness :
    extractTokenFromRequest "/s///" ⟨":8080", "http://x", "/s/", 10, "24h"⟩ = "" ∧
      extractTokenFromRequest "/s//abc/def" ⟨":8080", "http://x", "/s/", 10, "24h"⟩ ≠ "" :=
  ⟨by decide,
    (extract_single_segment "/s//abc/def" ⟨":8080", "http://x", "/s/", 10, "24h"⟩).2.1.2
      ⟨by decide, 'a', by decide, by decide⟩⟩

/-! ## Configuration defaults -/

theorem HasSuffix_iff (s suffix : String) :
    HasSuffix s suffix = true ↔ suffix.data <:+ s.data := by
  unfold HasSuffix
  exact List.isSuffixOf_iff_suffix

/-- The prefix after defaulting, in closed form. -/
theorem loadConfig_ShortPrefix (cfg : Config) :
    (loadConfig cfg).ShortPrefix =
      if HasSuffix (if cfg.ShortPrefix = "" then "/s/" else cfg.ShortPrefix) "/" = true
      then (if cfg.ShortPrefix = "" then "/s/" else cfg.ShortPrefix)
      else (if cfg.ShortPrefix = "" then "/s/" else cfg.ShortPrefix) ++ "/" := by
  unfold loadConfig
  dsimp only
  split_ifs <;> simp_all

/-- The maximum after defaulting, in closed form. -/
theorem loadConfig_Max (cfg : Config) :
    (loadConfig cfg).Max = if cfg.Max ≤ 0 then 10 else cfg.Max := by
  unfold loadConfig
  dsimp only
  split_ifs <;> simp_all

/-- The window string after defaulting, in closed form. -/
theorem loadConfig_Window (cfg : Config) :
    (loadConfig cfg).Window = if cfg.Window = "" then "24h" else cfg.Window := by
  unfold loadConfig
  dsimp only
  split_ifs <;> simp_all

/-- C17. Configuration defaulting: for every decoded configuration, after the
defaulting step of `loadConfig` the path prefix is non-empty and ends with `'/'` (it is
`"/s/"` when it was empty, the given prefix with `"/"` appended when it was non-empty
without a final `'/'`, and unchanged otherwise), the maximum is at least 1 (10 when it was
`≤ 0`, unchanged otherwise), and the window string is non-empty (`"24h"` when it was
empty, unchanged otherwise). -/
theorem loadConfig_defaults (cfg : Config) :
    ((loadConfig cfg).ShortPrefix ≠ "" ∧
      HasSuffix (loadConfig cfg).ShortPrefix "/" = true ∧
      (∃ s : List Char, (loadConfig cfg).ShortPrefix.data = s ++ ['/'])) ∧
    ((cfg.ShortPrefix = "" → (loadConfig cfg).ShortPrefix = "/s/") ∧
      (cfg.ShortPrefix ≠ "" → HasSuffix cfg.ShortPrefix "/" = false →
        (loadConfig cfg).ShortPrefix = cfg.ShortPrefix ++ "/") ∧
      (cfg.ShortPrefix ≠ "" → HasSuffix cfg.ShortPrefix "/" = true →
        (loadConfig cfg).ShortPrefix = cfg.ShortPrefix)) ∧
    (1 ≤ (loadConfig cfg).Max ∧
      (cfg.Max ≤ 0 → (loadConfig cfg).Max = 10) ∧
      (0 < cfg.Max → (loadConfig cfg).Max = cfg.Max)) ∧
    ((loadConfig cfg).Window ≠ "" ∧
      (cfg.Window = "" → (loadConfig cfg).Window = "24h") ∧
      (cfg.Window ≠ "" → (loadConfig cfg).Window = cfg.Window)) := by
  have hsuf : HasSuffix (loadConfig cfg).ShortPrefix "/" = true := by
    rw [loadConfig_ShortPrefix]
    generalize (if cfg.ShortPrefix = "" then "/s/" else cfg.ShortPrefix) = p
    by_cases hp : HasSuffix p "/" = true
    · rw [if_pos hp]; exact hp
    · rw [if_neg hp, HasSuffix_iff, String.data_append]
      exact List.suffix_append _ _
  have hex : ∃ s : List Char, (loadConfig cfg).ShortPrefix.data = s ++ ['/'] := by
    obtain ⟨s, hs⟩ := (HasSuffix_iff _ _).1 hsuf
    exact ⟨s, hs.symm⟩
  refine ⟨⟨?_, hsuf, hex⟩, ⟨?_, ?_, ?_⟩, ⟨?_, ?_, ?_⟩, ⟨?_, ?_, ?_⟩⟩
  · intro h
    obtain ⟨s, hs⟩ := hex
    rw [h] at hs
    exact List.append_ne_nil_of_right_ne_nil s (List.cons_ne_nil _ _) hs.symm
  · intro h
    rw [loadConfig_ShortPrefix, if_pos h, if_pos (by decide)]
  · intro h hn
    rw [loadConfig_ShortPrefix, if_neg h, if_neg (by rw [hn]; simp)]
  · intro h hy
    rw [loadConfig_ShortPrefix, if_neg h, if_pos hy]
  · rw [loadConfig_Max]
    split <;> omega
  · intro h
    rw [loadConfig_Max, if_pos h]
  · intro h
    rw [loadConfig_Max, if_neg (by omega)]
  · rw [loadConfig_Window]
    split
    · decide
    · assumption
  · intro h
    rw [loadConfig_Window, if_pos h]
  · intro h
    rw [loadConfig_Window, if_neg h]

/-- C17, on an all-empty configuration with `max = -3`, and on the prefix `"/sub"`. -/
theorem loadConfig_defaults_witness :
    (loadConfig ⟨"", "", "", -3, ""⟩).ShortPrefix = "/s/" ∧
      (loadConfig ⟨"", "", "", -3, ""⟩).Max = 10 ∧
      (loadConfig ⟨"", "", "", -3, ""⟩).Window = "24h" ∧
      (loadConfig ⟨"", "", "/sub", 5, "1h"⟩).ShortPrefix = "/sub" ++ "/" ∧
      (loadConfig ⟨"", "", "/sub", 5, "1h"⟩).Max = 5 :=
  ⟨(loadConfig_defaults ⟨"", "", "", -3, ""⟩).2.1.1 rfl,
    (loadConfig_defaults ⟨"", "", "", -3, ""⟩).2.2.1.2.1 (by decide),
    (loadConfig_defaults ⟨"", "", "", -3, ""⟩).2.2.2.2.1 rfl,
    (loadConfig_defaults ⟨"", "", "/sub", 5, "1h"⟩).2.1.2.1 (by decide) (by decide),
    (loadConfig_defaults ⟨"", "", "/sub", 5, "1h"⟩).2.2.1.2.2 (by decide)⟩

end FlLimit
